import Mathlib

/-!
Verification of the one-way directory synchronization service
(`main.py` / `yandex_cloud.py`): a shallow embedding of the
reconciliation algorithm `synchronization` and of the remote-store
client `YandexCloud`, with theorems settling the specified properties.

Timestamps (`os.path.getmtime`, `datetime.timestamp()`) are modelled as
rationals; Python truthiness of a float (`if not file_cloud`) is the
test `file_cloud = 0`.
-/

/-- A Python `Dict[str, float]` in insertion order: the remote listing
mapping file names to modification timestamps. -/
abbrev Listing := List (String × ℚ)

/-- The keys of a listing, in order. -/
def keys (m : Listing) : List String := m.map Prod.fst

/-- Dictionary lookup: the value of the first (with unique keys, only)
entry named `k`. -/
def lookupTs : Listing → String → Option ℚ
  | [], _ => none
  | (a, t) :: rest, k => if a = k then some t else lookupTs rest k

/-- Dictionary `pop`: remove the entry named `k` (the first one, which
with unique keys is the only one). -/
def removeKey : Listing → String → Listing
  | [], _ => []
  | (a, t) :: rest, k => if a = k then rest else (a, t) :: removeKey rest k

/-- Remove every key of `ns` in turn, as the local loop pops each
processed file name from `files_cloud`. -/
def removeKeys (m : Listing) (ns : List String) : Listing :=
  ns.foldl removeKey m

theorem keys_cons (a : String) (t : ℚ) (m : Listing) :
    keys ((a, t) :: m) = a :: keys m := rfl

theorem lookupTs_eq_none_iff (m : Listing) (k : String) :
    lookupTs m k = none ↔ k ∉ keys m := by
  induction m with
  | nil => simp [lookupTs, keys]
  | cons p rest ih =>
    obtain ⟨a, t⟩ := p
    by_cases h : a = k
    · subst h
      simp [lookupTs, keys]
    · simp [lookupTs, keys, h, ih, Ne.symm h]

theorem lookupTs_isSome_of_mem {m : Listing} {q : String × ℚ}
    (hq : q ∈ m) : (lookupTs m q.1).isSome := by
  induction m with
  | nil => cases hq
  | cons p rest ih =>
    obtain ⟨a, t⟩ := p
    rcases List.mem_cons.mp hq with h | h
    · subst h
      simp [lookupTs]
    · by_cases ha : a = q.1
      · simp [lookupTs, ha]
      · simp [lookupTs, ha, ih h]

theorem lookupTs_of_mem_nodup {m : Listing} {q : String × ℚ}
    (hnd : (keys m).Nodup) (hq : q ∈ m) : lookupTs m q.1 = some q.2 := by
  induction m with
  | nil => cases hq
  | cons p rest ih =>
    obtain ⟨a, t⟩ := p
    rw [keys_cons, List.nodup_cons] at hnd
    rcases List.mem_cons.mp hq with h | h
    · subst h
      simp [lookupTs]
    · have ha : a ≠ q.1 := by
        intro h'
        exact hnd.1 (h' ▸ (List.mem_map.mpr ⟨q, h, rfl⟩))
      simp [lookupTs, ha, ih hnd.2 h]

theorem removeKey_sublist (m : Listing) (k : String) :
    List.Sublist (removeKey m k) m := by
  induction m with
  | nil => simp [removeKey]
  | cons p rest ih =>
    obtain ⟨a, t⟩ := p
    by_cases h : a = k
    · simp [removeKey, h, List.sublist_cons_self]
    · simpa [removeKey, h] using List.Sublist.cons₂ (a, t) ih

theorem keys_removeKey_sublist (m : Listing) (k : String) :
    List.Sublist (keys (removeKey m k)) (keys m) :=
  List.Sublist.map Prod.fst (removeKey_sublist m k)

theorem nodup_keys_removeKey {m : Listing} (k : String)
    (hnd : (keys m).Nodup) : (keys (removeKey m k)).Nodup :=
  List.Nodup.sublist (keys_removeKey_sublist m k) hnd

theorem removeKey_eq_of_not_mem {m : Listing} {k : String}
    (h : k ∉ keys m) : removeKey m k = m := by
  induction m with
  | nil => rfl
  | cons p rest ih =>
    obtain ⟨a, t⟩ := p
    rw [keys_cons] at h
    have ha : a ≠ k := fun h' => h (h' ▸ List.mem_cons_self a (keys rest))
    have hr : k ∉ keys rest := fun h' => h (List.mem_cons_of_mem a h')
    simp [removeKey, ha, ih hr]

theorem lookupTs_removeKey_ne {k x : String} (m : Listing) (h : k ≠ x) :
    lookupTs (removeKey m k) x = lookupTs m x := by
  induction m with
  | nil => rfl
  | cons p rest ih =>
    obtain ⟨a, t⟩ := p
    by_cases ha : a = k
    · subst ha
      simp [removeKey, lookupTs, h, ih]
    · by_cases hx : a = x
      · subst hx
        simp [removeKey, lookupTs, ha]
      · simp [removeKey, lookupTs, ha, hx, ih]

theorem lookupTs_removeKey_self {m : Listing} (k : String)
    (hnd : (keys m).Nodup) : lookupTs (removeKey m k) k = none := by
  induction m with
  | nil => rfl
  | cons p rest ih =>
    obtain ⟨a, t⟩ := p
    rw [keys_cons, List.nodup_cons] at hnd
    by_cases ha : a = k
    · subst ha
      simp [removeKey, (lookupTs_eq_none_iff rest a).mpr hnd.1]
    · simp [removeKey, lookupTs, ha, ih hnd.2]

theorem mem_removeKey_iff {m : Listing} {k : String} {q : String × ℚ}
    (hnd : (keys m).Nodup) : q ∈ removeKey m k ↔ q ∈ m ∧ q.1 ≠ k := by
  induction m with
  | nil => simp [removeKey]
  | cons p rest ih =>
    obtain ⟨a, t⟩ := p
    rw [keys_cons, List.nodup_cons] at hnd
    by_cases ha : a = k
    · subst ha
      constructor
      · intro hq
        refine ⟨List.mem_cons_of_mem _ (by simpa [removeKey] using hq), ?_⟩
        intro hk
        exact hnd.1 (hk ▸ List.mem_map.mpr ⟨q, by simpa [removeKey] using hq, rfl⟩)
      · rintro ⟨hq, hne⟩
        rcases List.mem_cons.mp hq with h | h
        · exact absurd (congrArg Prod.fst h) hne
        · simpa [removeKey] using h
    · have hrw : removeKey ((a, t) :: rest) k = (a, t) :: removeKey rest k := by
        simp [removeKey, ha]
      rw [hrw]
      simp only [List.mem_cons, ih hnd.2]
      constructor
      · rintro (h | ⟨h1, h2⟩)
        · exact ⟨Or.inl h, by rw [h]; exact ha⟩
        · exact ⟨Or.inr h1, h2⟩
      · rintro ⟨h | h, hne⟩
        · exact Or.inl h
        · exact Or.inr ⟨h, hne⟩

theorem removeKeys_nil (m : Listing) : removeKeys m [] = m := rfl

theorem removeKeys_cons (m : Listing) (k : String) (ns : List String) :
    removeKeys m (k :: ns) = removeKeys (removeKey m k) ns := rfl

theorem nodup_keys_removeKeys {m : Listing} (ns : List String)
    (hnd : (keys m).Nodup) : (keys (removeKeys m ns)).Nodup := by
  induction ns generalizing m with
  | nil => exact hnd
  | cons k ns ih => exact ih (nodup_keys_removeKey k hnd)

theorem mem_removeKeys_iff {m : Listing} {ns : List String} {q : String × ℚ}
    (hnd : (keys m).Nodup) : q ∈ removeKeys m ns ↔ q ∈ m ∧ q.1 ∉ ns := by
  induction ns generalizing m with
  | nil => simp [removeKeys_nil]
  | cons k ns ih =>
    rw [removeKeys_cons, ih (nodup_keys_removeKey k hnd),
      mem_removeKey_iff hnd]
    simp only [List.mem_cons]
    constructor
    · rintro ⟨⟨hq, hne⟩, hns⟩
      exact ⟨hq, by rintro (h | h) <;> [exact hne h; exact hns h]⟩
    · rintro ⟨hq, hns⟩
      exact ⟨⟨hq, fun h => hns (Or.inl h)⟩, fun h => hns (Or.inr h)⟩

/-- A remote-store call issued during one sync cycle: `load` is
`cloud.load` (upload with `overwrite=False`), `reload` is
`cloud.reload` (upload with `overwrite=True`), `delete` is
`cloud.delete`. -/
inductive CloudCall where
  | load : String → CloudCall
  | reload : String → CloudCall
  | delete : String → CloudCall
deriving DecidableEq

/-- The file name a call refers to. -/
def callName : CloudCall → String
  | CloudCall.load n => n
  | CloudCall.reload n => n
  | CloudCall.delete n => n

def isLoad : CloudCall → Bool
  | CloudCall.load _ => true
  | _ => false

def isReload : CloudCall → Bool
  | CloudCall.reload _ => true
  | _ => false

def isDelete : CloudCall → Bool
  | CloudCall.delete _ => true
  | _ => false

/-- The three per-cycle counters logged by `synchronization`:
`download_files` (uploads), `rewrite_files` (overwrites),
`deleted_files` (deletions). -/
structure SyncResult where
  download_files : Nat
  rewrite_files : Nat
  deleted_files : Nat
deriving DecidableEq

/-- The mutable state of the local-files loop in `synchronization`:
the remaining `files_cloud` dictionary, the trace of remote-store
calls issued so far, and the two counters incremented in the loop. -/
structure LoopState where
  files_cloud : Listing
  calls : List CloudCall
  download_files : Nat
  rewrite_files : Nat

/-- One iteration of the `for file in os.listdir(path_on_pc)` loop:
`file_cloud = files_cloud.pop(file) if file in files_cloud else None`,
then `if not file_cloud` (Python truthiness: `None` or `0.0`) uploads
via `cloud.load`, `elif file_cloud and modified > file_cloud`
overwrites via `cloud.reload`. `p` is the file name with its
`os.path.getmtime` timestamp. -/
def syncFile (st : LoopState) (p : String × ℚ) : LoopState :=
  match lookupTs st.files_cloud p.1 with
  | none =>
      { st with calls := st.calls ++ [CloudCall.load p.1],
                download_files := st.download_files + 1 }
  | some file_cloud =>
      let st' := { st with files_cloud := removeKey st.files_cloud p.1 }
      if file_cloud = 0 then
        { st' with calls := st'.calls ++ [CloudCall.load p.1],
                   download_files := st'.download_files + 1 }
      else if p.2 > file_cloud then
        { st' with calls := st'.calls ++ [CloudCall.reload p.1],
                   rewrite_files := st'.rewrite_files + 1 }
      else st'

/-- One whole body of `synchronization` (main.py lines 50-82) on a
successful cycle: fold the local listing through the loop, then delete
every entry still left in `files_cloud`.  Returns the logged counters
and the trace of remote-store calls in order. -/
def synchronizationCore (localFiles : Listing) (files_cloud : Listing) :
    SyncResult × List CloudCall :=
  let st := localFiles.foldl syncFile ⟨files_cloud, [], 0, 0⟩
  (⟨st.download_files, st.rewrite_files, st.files_cloud.length⟩,
   st.calls ++ st.files_cloud.map (fun q => CloudCall.delete q.1))

/-- The calls the loop body issues for one local file, as a function of
the remote listing it is looked up in. -/
def fileCall (m : Listing) (p : String × ℚ) : List CloudCall :=
  match lookupTs m p.1 with
  | none => [CloudCall.load p.1]
  | some r =>
      if r = 0 then [CloudCall.load p.1]
      else if p.2 > r then [CloudCall.reload p.1]
      else []

/-- The calls issued for a whole local listing against a fixed remote
snapshot. -/
def planCalls (m : Listing) : Listing → List CloudCall
  | [] => []
  | p :: rest => fileCall m p ++ planCalls m rest

theorem syncFile_files_cloud (st : LoopState) (p : String × ℚ) :
    (syncFile st p).files_cloud = removeKey st.files_cloud p.1 := by
  unfold syncFile
  cases hm : lookupTs st.files_cloud p.1 with
  | none =>
      simp [removeKey_eq_of_not_mem ((lookupTs_eq_none_iff _ _).mp hm)]
  | some r =>
      by_cases h0 : r = 0
      · simp [h0]
      · by_cases hgt : p.2 > r <;> simp [h0, hgt]

theorem syncFile_calls (st : LoopState) (p : String × ℚ) :
    (syncFile st p).calls = st.calls ++ fileCall st.files_cloud p := by
  unfold syncFile fileCall
  cases hm : lookupTs st.files_cloud p.1 with
  | none => simp
  | some r =>
      by_cases h0 : r = 0
      · simp [h0]
      · by_cases hgt : p.2 > r <;> simp [h0, hgt]

theorem syncFile_download (st : LoopState) (p : String × ℚ) :
    (syncFile st p).download_files
      = st.download_files + (fileCall st.files_cloud p).countP isLoad := by
  unfold syncFile fileCall
  cases hm : lookupTs st.files_cloud p.1 with
  | none => simp [List.countP_cons, isLoad]
  | some r =>
      by_cases h0 : r = 0
      · simp [h0, List.countP_cons, isLoad]
      · by_cases hgt : p.2 > r <;>
          simp [h0, hgt, List.countP_cons, isLoad, isReload]

theorem syncFile_rewrite (st : LoopState) (p : String × ℚ) :
    (syncFile st p).rewrite_files
      = st.rewrite_files + (fileCall st.files_cloud p).countP isReload := by
  unfold syncFile fileCall
  cases hm : lookupTs st.files_cloud p.1 with
  | none => simp [List.countP_cons, isReload]
  | some r =>
      by_cases h0 : r = 0
      · simp [h0, List.countP_cons, isReload]
      · by_cases hgt : p.2 > r <;>
          simp [h0, hgt, List.countP_cons, isLoad, isReload]

theorem fileCall_removeKey_ne {k : String} (m : Listing) (p : String × ℚ)
    (h : k ≠ p.1) : fileCall (removeKey m k) p = fileCall m p := by
  unfold fileCall
  rw [lookupTs_removeKey_ne m h]

theorem planCalls_removeKey {k : String} (m : Listing) (files : Listing)
    (h : k ∉ keys files) : planCalls (removeKey m k) files = planCalls m files := by
  induction files with
  | nil => rfl
  | cons p rest ih =>
    rw [keys_cons] at h
    have h1 : k ≠ p.1 := fun h' => h (h' ▸ List.mem_cons_self p.1 (keys rest))
    have h2 : k ∉ keys rest := fun h' => h (List.mem_cons_of_mem p.1 h')
    simp [planCalls, fileCall_removeKey_ne m p h1, ih h2]

theorem planCalls_append (m : Listing) (xs ys : Listing) :
    planCalls m (xs ++ ys) = planCalls m xs ++ planCalls m ys := by
  induction xs with
  | nil => rfl
  | cons p rest ih => simp [planCalls, ih]

theorem callName_mem_fileCall {m : Listing} {p : String × ℚ} {c : CloudCall}
    (hc : c ∈ fileCall m p) : callName c = p.1 := by
  unfold fileCall at hc
  rcases hm : lookupTs m p.1 with _ | r <;> rw [hm] at hc
  · simp at hc
    simp [hc, callName]
  · by_cases h0 : r = 0
    · simp [h0] at hc
      simp [hc, callName]
    · by_cases hgt : p.2 > r <;> simp [h0, hgt] at hc
      simp [hc, callName]

theorem callName_mem_planCalls {m : Listing} {files : Listing} {c : CloudCall}
    (hc : c ∈ planCalls m files) : callName c ∈ keys files := by
  induction files with
  | nil => cases hc
  | cons p rest ih =>
    rw [keys_cons]
    rcases List.mem_append.mp hc with h | h
    · exact List.mem_cons.mpr (Or.inl (callName_mem_fileCall h))
    · exact List.mem_cons_of_mem _ (ih h)

theorem not_isDelete_mem_planCalls {m : Listing} {files : Listing} {c : CloudCall}
    (hc : c ∈ planCalls m files) : isDelete c = false := by
  induction files with
  | nil => cases hc
  | cons p rest ih =>
    rcases List.mem_append.mp hc with h | h
    · unfold fileCall at h
      rcases hm : lookupTs m p.1 with _ | r <;> rw [hm] at h
      · simp at h
        simp [h, isDelete]
      · by_cases h0 : r = 0
        · simp [h0] at h
          simp [h, isDelete]
        · by_cases hgt : p.2 > r <;> simp [h0, hgt] at h
          simp [h, isDelete]
    · exact ih h

theorem foldl_syncFile_files_cloud (files : Listing) (st : LoopState) :
    (files.foldl syncFile st).files_cloud
      = removeKeys st.files_cloud (keys files) := by
  induction files generalizing st with
  | nil => rfl
  | cons p rest ih =>
    rw [List.foldl_cons, ih, keys_cons, removeKeys_cons,
      syncFile_files_cloud]

theorem foldl_syncFile_calls (files : Listing) (st : LoopState)
    (hnd : (keys files).Nodup) :
    (files.foldl syncFile st).calls
      = st.calls ++ planCalls st.files_cloud files := by
  induction files generalizing st with
  | nil => simp [planCalls]
  | cons p rest ih =>
    rw [keys_cons, List.nodup_cons] at hnd
    rw [List.foldl_cons, ih _ hnd.2, syncFile_calls, syncFile_files_cloud,
      planCalls_removeKey _ _ hnd.1]
    simp [planCalls]

theorem foldl_syncFile_download (files : Listing) (st : LoopState)
    (hnd : (keys files).Nodup) :
    (files.foldl syncFile st).download_files
      = st.download_files + (planCalls st.files_cloud files).countP isLoad := by
  induction files generalizing st with
  | nil => simp [planCalls]
  | cons p rest ih =>
    rw [keys_cons, List.nodup_cons] at hnd
    rw [List.foldl_cons, ih _ hnd.2, syncFile_download, syncFile_files_cloud,
      planCalls_removeKey _ _ hnd.1]
    simp [planCalls, List.countP_append, Nat.add_assoc]

theorem foldl_syncFile_rewrite (files : Listing) (st : LoopState)
    (hnd : (keys files).Nodup) :
    (files.foldl syncFile st).rewrite_files
      = st.rewrite_files + (planCalls st.files_cloud files).countP isReload := by
  induction files generalizing st with
  | nil => simp [planCalls]
  | cons p rest ih =>
    rw [keys_cons, List.nodup_cons] at hnd
    rw [List.foldl_cons, ih _ hnd.2, syncFile_rewrite, syncFile_files_cloud,
      planCalls_removeKey _ _ hnd.1]
    simp [planCalls, List.countP_append, Nat.add_assoc]

theorem synchronizationCore_calls (localFiles remote : Listing)
    (hnd : (keys localFiles).Nodup) :
    (synchronizationCore localFiles remote).2
      = planCalls remote localFiles
        ++ (removeKeys remote (keys localFiles)).map
             (fun q => CloudCall.delete q.1) := by
  unfold synchronizationCore
  simp only [foldl_syncFile_calls _ _ hnd, foldl_syncFile_files_cloud]
  simp

theorem synchronizationCore_result (localFiles remote : Listing)
    (hnd : (keys localFiles).Nodup) :
    (synchronizationCore localFiles remote).1
      = ⟨(planCalls remote localFiles).countP isLoad,
         (planCalls remote localFiles).countP isReload,
         (removeKeys remote (keys localFiles)).length⟩ := by
  unfold synchronizationCore
  simp only [foldl_syncFile_download _ _ hnd, foldl_syncFile_rewrite _ _ hnd,
    foldl_syncFile_files_cloud]
  simp

/-- The effect of one successful remote-store call on the remote
folder's contents: an upload (either overwrite flag) stores the file
with the backend-assigned modification time `u name`; a delete removes
it. -/
def applyCall (u : String → ℚ) (s : Listing) : CloudCall → Listing
  | CloudCall.load n => (n, u n) :: removeKey s n
  | CloudCall.reload n => (n, u n) :: removeKey s n
  | CloudCall.delete n => removeKey s n

/-- The remote folder's contents after a trace of successful calls. -/
def applyCalls (u : String → ℚ) (s : Listing) (cs : List CloudCall) : Listing :=
  cs.foldl (applyCall u) s

/-- What one call does to the value a later lookup of `x` sees. -/
def callEffect (u : String → ℚ) (x : String) (acc : Option ℚ) :
    CloudCall → Option ℚ
  | CloudCall.load n => if n = x then some (u n) else acc
  | CloudCall.reload n => if n = x then some (u n) else acc
  | CloudCall.delete n => if n = x then none else acc

theorem nodup_keys_applyCall {s : Listing} (u : String → ℚ) (c : CloudCall)
    (hnd : (keys s).Nodup) : (keys (applyCall u s c)).Nodup := by
  cases c with
  | load n =>
      rw [applyCall, keys_cons, List.nodup_cons]
      exact ⟨(lookupTs_eq_none_iff _ _).mp (lookupTs_removeKey_self n hnd),
        nodup_keys_removeKey n hnd⟩
  | reload n =>
      rw [applyCall, keys_cons, List.nodup_cons]
      exact ⟨(lookupTs_eq_none_iff _ _).mp (lookupTs_removeKey_self n hnd),
        nodup_keys_removeKey n hnd⟩
  | delete n => exact nodup_keys_removeKey n hnd

theorem nodup_keys_applyCalls {s : Listing} (u : String → ℚ)
    (cs : List CloudCall) (hnd : (keys s).Nodup) :
    (keys (applyCalls u s cs)).Nodup := by
  induction cs generalizing s with
  | nil => exact hnd
  | cons c rest ih => exact ih (nodup_keys_applyCall u c hnd)

theorem lookupTs_applyCall {s : Listing} (u : String → ℚ) (x : String)
    (c : CloudCall) (hnd : (keys s).Nodup) :
    lookupTs (applyCall u s c) x = callEffect u x (lookupTs s x) c := by
  cases c with
  | load n =>
      by_cases hn : n = x
      · subst hn
        simp [applyCall, lookupTs, callEffect]
      · simp [applyCall, lookupTs, callEffect, hn,
          lookupTs_removeKey_ne s hn]
  | reload n =>
      by_cases hn : n = x
      · subst hn
        simp [applyCall, lookupTs, callEffect]
      · simp [applyCall, lookupTs, callEffect, hn,
          lookupTs_removeKey_ne s hn]
  | delete n =>
      by_cases hn : n = x
      · subst hn
        simp [applyCall, callEffect, lookupTs_removeKey_self n hnd]
      · simp [applyCall, callEffect, hn, lookupTs_removeKey_ne s hn]

theorem lookupTs_applyCalls {s : Listing} (u : String → ℚ) (x : String)
    (cs : List CloudCall) (hnd : (keys s).Nodup) :
    lookupTs (applyCalls u s cs) x
      = cs.foldl (callEffect u x) (lookupTs s x) := by
  induction cs generalizing s with
  | nil => rfl
  | cons c rest ih =>
    rw [applyCalls, List.foldl_cons, List.foldl_cons]
    rw [show List.foldl (applyCall u) (applyCall u s c) rest
        = applyCalls u (applyCall u s c) rest from rfl]
    rw [ih (nodup_keys_applyCall u c hnd), lookupTs_applyCall u x c hnd]

theorem foldl_callEffect_skip (u : String → ℚ) (x : String)
    (cs : List CloudCall) (a : Option ℚ)
    (h : ∀ c ∈ cs, callName c ≠ x) :
    cs.foldl (callEffect u x) a = a := by
  induction cs generalizing a with
  | nil => rfl
  | cons c rest ih =>
    have hc : callName c ≠ x := h c (List.mem_cons_self c rest)
    have hstep : callEffect u x a c = a := by
      cases c with
      | load n => simp [callEffect, callName] at hc ⊢; simp [hc]
      | reload n => simp [callEffect, callName] at hc ⊢; simp [hc]
      | delete n => simp [callEffect, callName] at hc ⊢; simp [hc]
    rw [List.foldl_cons, hstep]
    exact ih a (fun c hmem => h c (List.mem_cons_of_mem _ hmem))

theorem foldl_callEffect_delete_map (u : String → ℚ) (x : String)
    (R : Listing) (a : Option ℚ) :
    (R.map (fun q => CloudCall.delete q.1)).foldl (callEffect u x) a
      = if x ∈ keys R then none else a := by
  induction R generalizing a with
  | nil => simp [keys]
  | cons q rest ih =>
    rw [List.map_cons, List.foldl_cons, keys_cons]
    by_cases hq : q.1 = x
    · subst hq
      rw [ih]
      simp [callEffect]
    · have : callEffect u x a (CloudCall.delete q.1) = a := by
        simp [callEffect, hq]
      rw [this, ih]
      have hx : (x ∈ q.1 :: keys rest) ↔ x ∈ keys rest := by
        simp [Ne.symm hq]
      by_cases hm : x ∈ keys rest <;> simp [hm, hx, Ne.symm hq]

/-- The timestamp a local file `p` ends the cycle with in the remote
store, as decided by the per-file branch of the loop. -/
def finalTs (u : String → ℚ) (remote : Listing) (p : String × ℚ) : ℚ :=
  match lookupTs remote p.1 with
  | none => u p.1
  | some r => if r = 0 then u p.1 else if p.2 > r then u p.1 else r

theorem foldl_callEffect_fileCall (u : String → ℚ) (remote : Listing)
    (p : String × ℚ) :
    (fileCall remote p).foldl (callEffect u p.1) (lookupTs remote p.1)
      = some (finalTs u remote p) := by
  unfold fileCall finalTs
  rcases hm : lookupTs remote p.1 with _ | r
  · simp [callEffect]
  · by_cases h0 : r = 0
    · simp [h0, callEffect]
    · by_cases hgt : p.2 > r <;> simp [h0, hgt, callEffect]

theorem final_lookup_local {localFiles remote : Listing} {u : String → ℚ}
    (hl : (keys localFiles).Nodup) (hr : (keys remote).Nodup)
    {p : String × ℚ} (hp : p ∈ localFiles) :
    lookupTs (applyCalls u remote (synchronizationCore localFiles remote).2) p.1
      = some (finalTs u remote p) := by
  obtain ⟨l1, l2, rfl⟩ := List.append_of_mem hp
  rw [synchronizationCore_calls _ _ hl, lookupTs_applyCalls u p.1 _ hr,
    planCalls_append, planCalls]
  have hk : keys (l1 ++ p :: l2) = keys l1 ++ p.1 :: keys l2 := by
    simp [keys]
  rw [hk] at hl
  rw [List.nodup_append] at hl
  have hx1 : p.1 ∉ keys l1 := fun hmem =>
    hl.2.2 hmem (List.mem_cons_self p.1 (keys l2))
  have hx2 : p.1 ∉ keys l2 := (List.nodup_cons.mp hl.2.1).1
  rw [List.foldl_append, List.foldl_append, List.foldl_append,
    foldl_callEffect_skip u p.1 (planCalls remote l1) _
      (fun c hc hn => hx1 (by rw [← hn]; exact callName_mem_planCalls hc)),
    foldl_callEffect_fileCall,
    foldl_callEffect_skip u p.1 (planCalls remote l2) _
      (fun c hc hn => hx2 (by rw [← hn]; exact callName_mem_planCalls hc)),
    foldl_callEffect_delete_map]
  have hnotR : p.1 ∉ keys (removeKeys remote (keys (l1 ++ p :: l2))) := by
    intro hmem
    obtain ⟨q, hq, hq1⟩ := List.mem_map.mp hmem
    have := ((mem_removeKeys_iff hr).mp hq).2
    rw [hq1, hk] at this
    exact this (List.mem_append.mpr (Or.inr (List.mem_cons_self _ _)))
  simp [hnotR]

theorem final_lookup_nonlocal {localFiles remote : Listing} {u : String → ℚ}
    (hl : (keys localFiles).Nodup) (hr : (keys remote).Nodup)
    {x : String} (hx : x ∉ keys localFiles) :
    lookupTs (applyCalls u remote (synchronizationCore localFiles remote).2) x
      = none := by
  rw [synchronizationCore_calls _ _ hl, lookupTs_applyCalls u x _ hr,
    List.foldl_append,
    foldl_callEffect_skip u x (planCalls remote localFiles) _
      (fun c hc hn => hx (by rw [← hn]; exact callName_mem_planCalls hc)),
    foldl_callEffect_delete_map]
  by_cases hmem : x ∈ keys (removeKeys remote (keys localFiles))
  · simp [hmem]
  · rw [if_neg hmem]
    rw [lookupTs_eq_none_iff]
    intro hrem
    obtain ⟨q, hq, hq1⟩ := List.mem_map.mp hrem
    have hqR : q ∈ removeKeys remote (keys localFiles) :=
      (mem_removeKeys_iff hr).mpr ⟨hq, hq1 ▸ hx⟩
    exact hmem (List.mem_map.mpr ⟨q, hqR, hq1⟩)

theorem mem_final_name {localFiles remote : Listing} {u : String → ℚ}
    (hl : (keys localFiles).Nodup) (hr : (keys remote).Nodup)
    {q : String × ℚ}
    (hq : q ∈ applyCalls u remote (synchronizationCore localFiles remote).2) :
    q.1 ∈ keys localFiles := by
  by_contra hx
  have h1 := final_lookup_nonlocal hl hr (u := u) hx
  have h2 := lookupTs_isSome_of_mem hq
  rw [h1] at h2
  cases h2

/-- The error taxonomy of `cloud_exceptions` plus `requests.ConnectionError`:
`connection` is `ConnectionError`, `token` is `TokenException`, `cloud msg`
is `CloudException(msg)`. -/
inductive CloudErr where
  | connection
  | token
  | cloud : String → CloudErr
deriving DecidableEq

/-- Python dict assignment `files[name] = ts`: update in place when the
key exists, append otherwise. -/
def dictInsert : Listing → String → ℚ → Listing
  | [], k, v => [(k, v)]
  | (a, b) :: rest, k, v =>
      if a = k then (a, v) :: rest else (a, b) :: dictInsert rest k v

namespace YandexCloud

/-- `YandexCloud.get_info` (yandex_cloud.py lines 82-102): on HTTP 200
build the name-to-timestamp dictionary from the response items; on 401
raise `TokenException`; otherwise raise `CloudException` with the
backend message.  `items` are the `(name, modified-timestamp)` pairs of
`_embedded.items`; `message` is the body's `message` field. -/
def get_info (status : Nat) (items : Listing) (message : String) :
    Except CloudErr Listing :=
  if status = 200 then
    Except.ok (items.foldl (fun files p => dictInsert files p.1 p.2) [])
  else if status = 401 then Except.error CloudErr.token
  else Except.error (CloudErr.cloud message)

/-- An HTTP request issued during an upload: phase (b) streams the file
bytes to the pre-signed `href`; the backend's response status is
recorded but, per the source, never inspected. -/
inductive HttpCall where
  | put : String → Nat → HttpCall
deriving DecidableEq

/-- `YandexCloud.__save` (yandex_cloud.py lines 31-48): request the
upload destination (phase a); on 200 PUT the file bytes to the returned
`href` (phase b, status `putStatus` ignored); otherwise raise
`CloudException` with the file name and backend message. -/
def save (getStatus : Nat) (href : String) (putStatus : Nat)
    (file_name message : String) : List HttpCall × Except CloudErr Unit :=
  if getStatus = 200 then ([HttpCall.put href putStatus], Except.ok ())
  else ([], Except.error (CloudErr.cloud
    ("Файл: " ++ file_name ++ ", Ошибка: " ++ message)))

/-- The query parameters of the DELETE request issued by
`YandexCloud.delete`: `path={folder}/{file}&force_async=False&permanently=False`. -/
structure DeleteRequest where
  path : String
  force_async : Bool
  permanently : Bool
deriving DecidableEq

/-- `YandexCloud.delete` (yandex_cloud.py lines 69-80): issue the
DELETE request with `force_async=False` and `permanently=False`; raise
`CloudException` with the file name and backend message unless the
response status is 204. -/
def delete (name_folder_cloud filename : String) (status : Nat)
    (message : String) : DeleteRequest × Except CloudErr Unit :=
  ({ path := name_folder_cloud ++ "/" ++ filename,
     force_async := false, permanently := false },
   if status = 204 then Except.ok ()
   else Except.error (CloudErr.cloud
     ("Файл: " ++ filename ++ ", Ошибка: " ++ message)))

/-- The folder-creation request `PUT {base}/resources?path={folder}`
issued by `YandexCloud.__create_folder_cloud`. -/
inductive FolderAction where
  | createFolder
deriving DecidableEq

/-- `YandexCloud.check_exists_folder_cloud` (yandex_cloud.py lines
116-124) together with `__create_folder_cloud` (lines 104-114): GET the
folder; only when the response status is 404 create it, raising
`CloudException` if creation does not answer 201.  Any other check
status falls through silently.  Returns the folder requests attempted
and the outcome. -/
def check_exists_folder_cloud (checkStatus createStatus : Nat)
    (createMessage : String) : List FolderAction × Except CloudErr Unit :=
  if checkStatus = 404 then
    ([FolderAction.createFolder],
     if createStatus = 201 then Except.ok ()
     else Except.error (CloudErr.cloud ("Ошибка: " ++ createMessage)))
  else ([], Except.ok ())

end YandexCloud

/-- `synchronization` (main.py lines 38-82) with the outcome of
`cloud.get_info()` as input: on a listing error the body raises before
issuing any remote-store call; otherwise the cycle runs to completion.
Returns the outcome together with the trace of calls issued. -/
def synchronizationRun (localFiles : Listing)
    (getInfoResult : Except CloudErr Listing) :
    Except CloudErr SyncResult × List CloudCall :=
  match getInfoResult with
  | Except.error e => (Except.error e, [])
  | Except.ok files_cloud =>
      ((Except.ok (synchronizationCore localFiles files_cloud).1),
       (synchronizationCore localFiles files_cloud).2)

/-- `exception_decorator` (main.py lines 19-35): catch
`ConnectionError`, `TokenException` and `CloudException`, log the
corresponding message, and return normally (`Except.ok`), so the
caller's loop continues; the logged message is carried in the result. -/
def exception_decorator {α : Type} (r : Except CloudErr α) :
    Except CloudErr (Option String) :=
  match r with
  | Except.ok _ => Except.ok none
  | Except.error CloudErr.connection =>
      Except.ok (some "Нет соединения, проверьте подключение к сети.")
  | Except.error CloudErr.token =>
      Except.ok (some "Ошибка авторизации, проверьте ваш Токен.")
  | Except.error (CloudErr.cloud m) => Except.ok (some m)

/-- The `while True` scheduler loop of `main` (main.py lines 132-135):
cycle `i` runs the decorated `synchronization` on that cycle's local
listing and remote-listing outcome; the list collects each cycle's
(logged-error) result in order. -/
def scheduler_cycles (n : Nat) (localSeq : Nat → Listing)
    (getInfoSeq : Nat → Except CloudErr Listing) :
    List (Except CloudErr (Option String)) :=
  (List.range n).map fun i =>
    exception_decorator (synchronizationRun (localSeq i) (getInfoSeq i)).1

theorem dictInsert_of_not_mem {m : Listing} {k : String} (v : ℚ)
    (h : k ∉ keys m) : dictInsert m k v = m ++ [(k, v)] := by
  induction m with
  | nil => rfl
  | cons p rest ih =>
    obtain ⟨a, b⟩ := p
    rw [keys_cons] at h
    have ha : a ≠ k := fun h' => h (h' ▸ List.mem_cons_self a (keys rest))
    have hr : k ∉ keys rest := fun h' => h (List.mem_cons_of_mem a h')
    simp [dictInsert, ha, ih hr]

theorem foldl_dictInsert_eq (items : Listing) :
    ∀ m : Listing, (keys items).Nodup → (∀ x ∈ keys items, x ∉ keys m) →
      items.foldl (fun files p => dictInsert files p.1 p.2) m = m ++ items := by
  induction items with
  | nil => intro m _ _; simp
  | cons p rest ih =>
    intro m hnd hdisj
    rw [keys_cons, List.nodup_cons] at hnd
    have hp : p.1 ∉ keys m :=
      hdisj p.1 (keys_cons p.1 p.2 rest ▸ List.mem_cons_self p.1 (keys rest))
    rw [List.foldl_cons, dictInsert_of_not_mem p.2 hp,
      ih (m ++ [(p.1, p.2)]) hnd.2 ?_]
    · simp
    · intro x hx
      have hxm : x ∉ keys m :=
        hdisj x (keys_cons p.1 p.2 rest ▸ List.mem_cons_of_mem p.1 hx)
      have hxp : x ≠ p.1 := fun h => hnd.1 (h ▸ hx)
      intro hmem
      have : keys (m ++ [(p.1, p.2)]) = keys m ++ [p.1] := by simp [keys]
      rw [this, List.mem_append] at hmem
      rcases hmem with h | h
      · exact hxm h
      · exact hxp (List.mem_singleton.mp h)

theorem le_finalTs {u : String → ℚ} (remote : Listing) {p : String × ℚ}
    (h : p.2 ≤ u p.1) : p.2 ≤ finalTs u remote p := by
  unfold finalTs
  rcases lookupTs remote p.1 with _ | r
  · exact h
  · by_cases h0 : r = 0
    · simp [h0, h]
    · by_cases hgt : p.2 > r
      · simp [h0, hgt, h]
      · simp [h0, hgt, le_of_not_lt hgt]

theorem finalTs_ne_zero {u : String → ℚ} (remote : Listing) {p : String × ℚ}
    (h : 0 < u p.1) : finalTs u remote p ≠ 0 := by
  unfold finalTs
  rcases lookupTs remote p.1 with _ | r
  · exact ne_of_gt h
  · by_cases h0 : r = 0
    · simp [h0, ne_of_gt h]
    · by_cases hgt : p.2 > r <;> simp [h0, hgt, ne_of_gt h]

theorem planCalls_eq_nil {m : Listing} {files : Listing}
    (h : ∀ p ∈ files, fileCall m p = []) : planCalls m files = [] := by
  induction files with
  | nil => rfl
  | cons p rest ih =>
    rw [planCalls, h p (List.mem_cons_self p rest),
      ih (fun q hq => h q (List.mem_cons_of_mem p hq))]
    rfl

theorem count_delete_planCalls (m : Listing) (files : Listing) (n : String) :
    (planCalls m files).count (CloudCall.delete n) = 0 := by
  rw [List.count_eq_zero]
  intro hmem
  have := not_isDelete_mem_planCalls hmem
  simp [isDelete] at this

theorem count_delete_map (R : Listing) (n : String) :
    (R.map (fun q => CloudCall.delete q.1)).count (CloudCall.delete n)
      = (keys R).count n := by
  induction R with
  | nil => rfl
  | cons q rest ih =>
    rw [List.map_cons, keys_cons, List.count_cons, List.count_cons, ih]
    by_cases h : q.1 = n <;> simp [h]

/-- Claim C1: after one successful sync cycle (every issued call applied
to the remote store, uploads landing with backend timestamps `u` no
earlier than the local modification times), every locally listed file
name is present remotely with `modifiedAt` at least the local value
recorded at the start of the cycle, and no remote name lacks a local
counterpart. -/
theorem sync_invariant (localFiles remote : Listing) (u : String → ℚ)
    (hl : (keys localFiles).Nodup) (hr : (keys remote).Nodup)
    (hu : ∀ p ∈ localFiles, p.2 ≤ u p.1) :
    (∀ p ∈ localFiles, ∃ ts,
        lookupTs (applyCalls u remote (synchronizationCore localFiles remote).2) p.1
          = some ts ∧ p.2 ≤ ts)
    ∧ ∀ q ∈ applyCalls u remote (synchronizationCore localFiles remote).2,
        ∃ p ∈ localFiles, p.1 = q.1 := by
  constructor
  · intro p hp
    exact ⟨finalTs u remote p, final_lookup_local hl hr hp,
      le_finalTs remote (hu p hp)⟩
  · intro q hq
    have := mem_final_name hl hr hq
    obtain ⟨p, hp, hp1⟩ := List.mem_map.mp this
    exact ⟨p, hp, hp1⟩

theorem sync_invariant_witness :
    (∀ p ∈ ([("a", (100 : ℚ))] : Listing), ∃ ts,
        lookupTs (applyCalls (fun _ => (200 : ℚ)) [("b", (5 : ℚ))]
          (synchronizationCore [("a", (100 : ℚ))] [("b", (5 : ℚ))]).2) p.1
          = some ts ∧ p.2 ≤ ts)
    ∧ ∀ q ∈ applyCalls (fun _ => (200 : ℚ)) [("b", (5 : ℚ))]
          (synchronizationCore [("a", (100 : ℚ))] [("b", (5 : ℚ))]).2,
        ∃ p ∈ ([("a", (100 : ℚ))] : Listing), p.1 = q.1 :=
  sync_invariant [("a", 100)] [("b", 5)] (fun _ => 200)
    (by decide) (by decide) (by decide)

/-- Claim C2 failing input: local file `a` with modification time 100
while the remote listing holds `a` with timestamp 0.  Because the
source tests `if not file_cloud` (float truthiness) instead of
`if file_cloud is None`, the cycle takes the `cloud.load`
(`overwrite=False`) branch and counts an upload even though the name is
present remotely, contradicting the claim (and the source's own
comment on that branch). -/
theorem load_called_for_present_zero_timestamp :
    lookupTs [("a", (0 : ℚ))] "a" = some 0
    ∧ synchronizationCore [("a", (100 : ℚ))] [("a", (0 : ℚ))]
        = (⟨1, 0, 0⟩, [CloudCall.load "a"]) :=
  ⟨rfl, rfl⟩

/-- Claim C3 failing input: local and remote timestamps both exactly 0.
The tie should trigger neither upload nor overwrite, but
`if not file_cloud` treats the popped remote value 0.0 as absent and
issues `cloud.load`, incrementing the uploaded counter. -/
theorem upload_on_equal_zero_timestamps :
    synchronizationCore [("a", (0 : ℚ))] [("a", (0 : ℚ))]
      = (⟨1, 0, 0⟩, [CloudCall.load "a"]) :=
  rfl

/-- Claim C4: in one cycle, `delete` is issued exactly once for every
remote-listing entry whose name has no local counterpart, and never for
a name present in the local directory listing. -/
theorem delete_correct (localFiles remote : Listing)
    (hl : (keys localFiles).Nodup) (hr : (keys remote).Nodup) :
    (∀ q ∈ remote, q.1 ∉ keys localFiles →
        (synchronizationCore localFiles remote).2.count (CloudCall.delete q.1) = 1)
    ∧ ∀ p ∈ localFiles,
        (synchronizationCore localFiles remote).2.count (CloudCall.delete p.1) = 0 := by
  rw [synchronizationCore_calls _ _ hl]
  constructor
  · intro q hq hq1
    rw [List.count_append, count_delete_planCalls, count_delete_map]
    have hqR : q ∈ removeKeys remote (keys localFiles) :=
      (mem_removeKeys_iff hr).mpr ⟨hq, hq1⟩
    have hmem : q.1 ∈ keys (removeKeys remote (keys localFiles)) :=
      List.mem_map.mpr ⟨q, hqR, rfl⟩
    rw [List.count_eq_one_of_mem (nodup_keys_removeKeys _ hr) hmem]
  · intro p hp
    rw [List.count_append, count_delete_planCalls, count_delete_map]
    have hnot : p.1 ∉ keys (removeKeys remote (keys localFiles)) := by
      intro hmem
      obtain ⟨q, hq, hq1⟩ := List.mem_map.mp hmem
      exact ((mem_removeKeys_iff hr).mp hq).2
        (hq1 ▸ List.mem_map.mpr ⟨p, hp, rfl⟩)
    rw [List.count_eq_zero.mpr hnot]

theorem delete_correct_witness :
    (synchronizationCore [("a", (100 : ℚ))] [("a", (50 : ℚ)), ("b", (7 : ℚ))]).2.count
        (CloudCall.delete "b") = 1
    ∧ (synchronizationCore [("a", (100 : ℚ))] [("a", (50 : ℚ)), ("b", (7 : ℚ))]).2.count
        (CloudCall.delete "a") = 0 :=
  ⟨(delete_correct [("a", 100)] [("a", 50), ("b", 7)] (by decide) (by decide)).1
      ("b", 7) (by decide) (by decide),
   (delete_correct [("a", 100)] [("a", 50), ("b", 7)] (by decide) (by decide)).2
      ("a", 100) (by decide)⟩

/-- Claim C5: a second cycle run against the remote state produced by
applying the first cycle's calls (uploads landing with positive
backend timestamps no earlier than the local modification times), with
the local directory unchanged, performs no remote-store call and
reports counters 0/0/0. -/
theorem sync_idempotent (localFiles remote : Listing) (u : String → ℚ)
    (hl : (keys localFiles).Nodup) (hr : (keys remote).Nodup)
    (hu : ∀ p ∈ localFiles, p.2 ≤ u p.1 ∧ 0 < u p.1) :
    synchronizationCore localFiles
        (applyCalls u remote (synchronizationCore localFiles remote).2)
      = (⟨0, 0, 0⟩, []) := by
  have hfin : (keys (applyCalls u remote (synchronizationCore localFiles remote).2)).Nodup :=
    nodup_keys_applyCalls u _ hr
  have hplan : planCalls
      (applyCalls u remote (synchronizationCore localFiles remote).2) localFiles = [] := by
    apply planCalls_eq_nil
    intro p hp
    unfold fileCall
    rw [final_lookup_local hl hr hp]
    have h0 : finalTs u remote p ≠ 0 := finalTs_ne_zero remote (hu p hp).2
    have hle : ¬ p.2 > finalTs u remote p :=
      not_lt.mpr (le_finalTs remote (hu p hp).1)
    simp [h0, hle]
  have hrem : removeKeys
      (applyCalls u remote (synchronizationCore localFiles remote).2)
      (keys localFiles) = [] := by
    rw [List.eq_nil_iff_forall_not_mem]
    intro q hq
    have h1 := (mem_removeKeys_iff hfin).mp hq
    exact h1.2 (mem_final_name hl hr h1.1)
  have h1 := synchronizationCore_result localFiles
    (applyCalls u remote (synchronizationCore localFiles remote).2) hl
  have h2 := synchronizationCore_calls localFiles
    (applyCalls u remote (synchronizationCore localFiles remote).2) hl
  rw [hplan, hrem] at h1 h2
  simp at h1 h2
  rw [Prod.ext_iff]
  exact ⟨h1, h2⟩

theorem sync_idempotent_witness :
    synchronizationCore [("a", (100 : ℚ))]
        (applyCalls (fun _ => (200 : ℚ)) [("b", (5 : ℚ))]
          (synchronizationCore [("a", (100 : ℚ))] [("b", (5 : ℚ))]).2)
      = (⟨0, 0, 0⟩, []) :=
  sync_idempotent [("a", 100)] [("b", 5)] (fun _ => 200)
    (by decide) (by decide) (by decide)

/-- Claim C6: `get_info` returns the name-to-timestamp mapping of the
listed items when the backend answers 200, raises `TokenException`
exactly when the status is 401, and raises `CloudException` with the
backend-provided message for every other status. -/
theorem get_info_spec (status : Nat) (items : Listing) (message : String)
    (hnd : (keys items).Nodup) :
    (status = 200 →
        YandexCloud.get_info status items message = Except.ok items
        ∧ ∀ p ∈ items, lookupTs items p.1 = some p.2)
    ∧ (YandexCloud.get_info status items message = Except.error CloudErr.token
        ↔ status = 401)
    ∧ (status ≠ 200 → status ≠ 401 →
        YandexCloud.get_info status items message
          = Except.error (CloudErr.cloud message)) := by
  refine ⟨?_, ?_, ?_⟩
  · intro h200
    constructor
    · unfold YandexCloud.get_info
      rw [if_pos h200, foldl_dictInsert_eq items [] hnd (by intro x _ h; cases h)]
      rfl
    · intro p hp
      exact lookupTs_of_mem_nodup hnd hp
  · unfold YandexCloud.get_info
    by_cases h200 : status = 200
    · simp [h200]
    · by_cases h401 : status = 401 <;> simp [h200, h401]
  · intro h200 h401
    unfold YandexCloud.get_info
    rw [if_neg h200, if_neg h401]

theorem get_info_spec_witness :
    (200 = 200 →
        YandexCloud.get_info 200 [("a", (3 : ℚ))] "m" = Except.ok [("a", (3 : ℚ))]
        ∧ ∀ p ∈ ([("a", (3 : ℚ))] : Listing), lookupTs [("a", (3 : ℚ))] p.1 = some p.2)
    ∧ (YandexCloud.get_info 200 [("a", (3 : ℚ))] "m" = Except.error CloudErr.token
        ↔ 200 = 401)
    ∧ (200 ≠ 200 → 200 ≠ 401 →
        YandexCloud.get_info 200 [("a", (3 : ℚ))] "m"
          = Except.error (CloudErr.cloud "m")) :=
  get_info_spec 200 [("a", 3)] "m" (by decide)

/-- Claim C7: when the initial remote-listing fetch of cycle 0 reports
an authorization failure, `synchronization` raises `TokenException`
with no upload, overwrite or delete issued; the wrapping decorator
catches it (logging the auth message) and returns normally, so cycle 1
of the scheduler loop still runs. -/
theorem auth_failure_aborts_cleanly (localSeq : Nat → Listing)
    (getInfoSeq : Nat → Except CloudErr Listing)
    (h0 : getInfoSeq 0 = Except.error CloudErr.token) :
    (synchronizationRun (localSeq 0) (getInfoSeq 0)).1
        = Except.error CloudErr.token
    ∧ (synchronizationRun (localSeq 0) (getInfoSeq 0)).2 = []
    ∧ scheduler_cycles 2 localSeq getInfoSeq
        = [Except.ok (some "Ошибка авторизации, проверьте ваш Токен."),
           exception_decorator (synchronizationRun (localSeq 1) (getInfoSeq 1)).1] := by
  refine ⟨by rw [h0]; rfl, by rw [h0]; rfl, ?_⟩
  have hr2 : List.range 2 = [0, 1] := rfl
  unfold scheduler_cycles
  rw [hr2, List.map_cons, List.map_cons, List.map_nil, h0]
  rfl

theorem auth_failure_witness :
    (synchronizationRun [] (Except.error CloudErr.token)).1
        = Except.error CloudErr.token
    ∧ (synchronizationRun [] (Except.error CloudErr.token)).2 = []
    ∧ scheduler_cycles 2 (fun _ => [])
          (fun _ => Except.error CloudErr.token)
        = [Except.ok (some "Ошибка авторизации, проверьте ваш Токен."),
           exception_decorator (synchronizationRun [] (Except.error CloudErr.token)).1] :=
  auth_failure_aborts_cleanly (fun _ => []) (fun _ => Except.error CloudErr.token) rfl

/-- Claim C8 counterexample: an existence check answering 500 (neither
success nor 404).  The source's `check_exists_folder_cloud` has no
`else` branch, so it neither creates the folder nor raises
`CloudException` — it returns silently, refuting the claim that any
other non-success, non-404 check response fails with the store error. -/
theorem ensure_folder_silent_on_error :
    YandexCloud.check_exists_folder_cloud 500 201 "Internal error"
      = ([], Except.ok ()) :=
  rfl

/-- Claim C8 as amended: the folder is created exactly when the
existence check answers 404; `CloudException` is raised exactly when
the check answered 404 and creation did not answer 201; every non-404
check response (success or error alike) is silently accepted. -/
theorem ensure_folder_spec (checkStatus createStatus : Nat) (msg : String) :
    ((YandexCloud.check_exists_folder_cloud checkStatus createStatus msg).1
        = [YandexCloud.FolderAction.createFolder] ↔ checkStatus = 404)
    ∧ ((YandexCloud.check_exists_folder_cloud checkStatus createStatus msg).2
        = Except.error (CloudErr.cloud ("Ошибка: " ++ msg))
        ↔ checkStatus = 404 ∧ createStatus ≠ 201)
    ∧ ((YandexCloud.check_exists_folder_cloud checkStatus createStatus msg).2
        = Except.ok () ↔ (checkStatus ≠ 404 ∨ createStatus = 201)) := by
  unfold YandexCloud.check_exists_folder_cloud
  by_cases h404 : checkStatus = 404 <;> by_cases h201 : createStatus = 201 <;>
    simp [h404, h201]

/-- Claim C9 counterexample: the DELETE request issued for any file
carries `permanently=False`, i.e. the backend is asked for a
recoverable (trash) deletion, not a permanent one as the claim states. -/
theorem delete_request_not_permanent :
    ¬ (YandexCloud.delete "sync_folder" "a.txt" 204 "").1.permanently = true := by
  decide

/-- Claim C9 as amended: `delete` issues a synchronous
(`force_async=False`) but recoverable (`permanently=False`, trash
semantics) deletion request for `{folder}/{file}`, and raises
`CloudException` carrying the file name and backend message exactly
when the response status is not 204. -/
theorem delete_spec (name_folder_cloud filename : String) (status : Nat)
    (message : String) :
    (YandexCloud.delete name_folder_cloud filename status message).1
      = { path := name_folder_cloud ++ "/" ++ filename,
          force_async := false, permanently := false }
    ∧ ((YandexCloud.delete name_folder_cloud filename status message).2
        = Except.ok () ↔ status = 204)
    ∧ ((YandexCloud.delete name_folder_cloud filename status message).2
        = Except.error (CloudErr.cloud
            ("Файл: " ++ filename ++ ", Ошибка: " ++ message))
        ↔ status ≠ 204) := by
  unfold YandexCloud.delete
  by_cases h : status = 204 <;> simp [h]

/-- Claim C10: `__save` succeeds whenever the phase (a) destination
request answers 200, for every outcome of the phase (b) PUT — the PUT's
response status is never inspected, so the result is independent of
it. -/
theorem save_ignores_put_status (getStatus : Nat) (href : String)
    (putStatus putStatus2 : Nat) (file_name message : String) :
    YandexCloud.save 200 href putStatus file_name message
      = ([YandexCloud.HttpCall.put href putStatus], Except.ok ())
    ∧ (YandexCloud.save getStatus href putStatus file_name message).2
      = (YandexCloud.save getStatus href putStatus2 file_name message).2 := by
  constructor
  · rfl
  · unfold YandexCloud.save
    by_cases h : getStatus = 200 <;> simp [h]
